import Mathlib

/-!
Shallow embedding of the read-coalescing I/O layer of
`velox/dwio/common/BufferedInput.cpp`, together with a model of the
`ParallelFor` fan-out primitive as specified (its implementation file is not
part of this source tree; only `ParallelForTest.cpp` is).

Machine integers (`uint64_t` offsets and lengths) are modelled as `Nat`; the
`int64_t` gap arithmetic of `tryMerge` is modelled as exact `Int` arithmetic,
which coincides with the C++ two's-complement computation for all file
offsets and lengths below `2^63`.  Byte buffers are modelled by their sizes;
a pointer into a buffer is modelled as the pair (buffer index, byte offset
within that buffer), and the null pointer as `none`.
-/

namespace Velox

/-- A half-open byte interval `[offset, offset + length)`, embedding
`velox::common::Region` (fields `offset` and `length`, both `uint64_t`). -/
structure Region where
  offset : Nat
  length : Nat
deriving DecidableEq, Repr

/-- `std::numeric_limits<uint64_t>::max()`, the sentinel size used by
`readInternal` / `readBuffer`. -/
def MAX_UINT64 : Nat := 2 ^ 64 - 1

/-- Embeds `BufferedInput::tryMerge(Region& first, const Region& second)`.

The C++ mutates `first` and returns `bool`, reporting `gap` to the statistics
sink when the regions merge with a strictly positive gap and positive
extension.  Here the result is `(merged?, updated first, bytes reported to
incRawOverreadBytes)`:

    int64_t gap = second.offset - first.offset - first.length;
    if (gap < 0 || gap <= maxMergeDistance_) {
      int64_t extension = gap + second.length;
      if (extension > 0) {
        first.length += extension;
        if (stats && gap > 0) stats->incRawOverreadBytes(gap);
      }
      return true;
    }
    return false;
-/
def tryMerge (maxMergeDistance : Nat) (first second : Region) :
    Bool × Region × Nat :=
  let gap : Int :=
    (second.offset : Int) - (first.offset : Int) - (first.length : Int)
  if gap < 0 ∨ gap ≤ (maxMergeDistance : Int) then
    let ext : Int := gap + (second.length : Int)
    if 0 < ext then
      (true, ⟨first.offset, first.length + ext.toNat⟩,
        if 0 < gap then gap.toNat else 0)
    else
      (true, first, 0)
  else
    (false, first, 0)

/-- The in-place forward pass of `BufferedInput::mergeRegions`, written as a
recursion: `acc` is the region currently being extended (`r[ia]` in the C++),
the list is the remaining input (`r[ib..]`).  Returns the coalesced run
together with the total number of bytes reported to `incRawOverreadBytes`. -/
def mergeLoop (maxMergeDistance : Nat) (acc : Region) :
    List Region → List Region × Nat
  | [] => ([acc], 0)
  | b :: bs =>
    let t := tryMerge maxMergeDistance acc b
    if t.1 then
      let rest := mergeLoop maxMergeDistance t.2.1 bs
      (rest.1, t.2.2 + rest.2)
    else
      let rest := mergeLoop maxMergeDistance b bs
      (acc :: rest.1, rest.2)

/-- Embeds `BufferedInput::mergeRegions` (the C++ asserts the input list is
non-empty and every region has positive length; those become hypotheses of
the theorems below).  Returns (merged regions, total over-read reported). -/
def mergeRegions (maxMergeDistance : Nat) :
    List Region → List Region × Nat
  | [] => ([], 0)
  | a :: rest => mergeLoop maxMergeDistance a rest

/-- `std::upper_bound(l.cbegin(), l.cend(), x)` on a sorted vector, as the
distance from `cbegin` to the returned iterator: the length of the maximal
prefix of elements `≤ x`. -/
def upperBound (l : List Nat) (x : Nat) : Nat :=
  match l with
  | [] => 0
  | a :: rest => if x < a then 0 else upperBound rest x + 1

/-- Embeds `BufferedInput::readInternal(offset, length)`.  The C++ returns
`std::tuple<const char*, uint64_t>`; the pointer is modelled as
`Option (Nat × Nat)` — `none` for `nullptr`, `some (index, start)` for
`buffers_[index].data() + start`:

    if (length == 0) return {nullptr, 0};
    auto it = std::upper_bound(offsets_.cbegin(), offsets_.cend(), offset);
    if (it != offsets_.cbegin()) {
      const uint64_t index = std::distance(offsets_.cbegin(), it) - 1;
      const uint64_t bufferOffset = offsets_[index];
      const auto& buffer = buffers_[index];
      if (bufferOffset + buffer.size() >= offset + length) {
        return {buffer.data() + (offset - bufferOffset), length};
      }
    }
    return {nullptr, MAX_UINT64};
-/
def readInternal (offsets buffers : List Nat) (offset length : Nat) :
    Option (Nat × Nat) × Nat :=
  if length = 0 then
    (none, 0)
  else
    let ub := upperBound offsets offset
    if ub ≠ 0 then
      let index := ub - 1
      let bufferOffset := offsets.getD index 0
      let bufSize := buffers.getD index 0
      if bufferOffset + bufSize ≥ offset + length then
        (some (index, offset - bufferOffset), length)
      else
        (none, MAX_UINT64)
    else
      (none, MAX_UINT64)

/-- The stream handed out by `enqueue` / `readBuffer`.  A
`SeekableArrayInputStream` over resident bytes is `array data size`
(with `data` as in `readInternal`); the deferred-callback stream created for
a region pushed onto the RegionSet is `lazy r`. -/
inductive Stream where
  | array (data : Option (Nat × Nat)) (size : Nat)
  | lazy (r : Region)
deriving DecidableEq, Repr

/-- Embeds `BufferedInput::readBuffer(offset, length)`: runs `readInternal`
and converts the sentinel into an empty `unique_ptr` (`none`). -/
def readBuffer (offsets buffers : List Nat) (offset length : Nat) :
    Option Stream :=
  let result := readInternal offsets buffers offset length
  if result.2 = MAX_UINT64 then
    none
  else
    some (.array result.1 result.2)

/-- The mutable state of a `BufferedInput`: the pending RegionSet
(`regions_`), the buffer index (`offsets_` and, for each entry, the size of
`buffers_[i]`), and the configured `maxMergeDistance_`. -/
structure BufferedInput where
  maxMergeDistance : Nat
  regions : List Region
  offsets : List Nat
  buffers : List Nat
deriving Repr

/-- Embeds `BufferedInput::enqueue(Region)` (the advisory stream identifier
is ignored by the C++): a length-0 region yields an empty array stream; a
range already covered by the buffer index yields the ready stream from
`readBuffer`; otherwise the region is appended to the RegionSet and a lazy
stream is returned. -/
def enqueue (bi : BufferedInput) (region : Region) : Stream × BufferedInput :=
  if region.length = 0 then
    (.array none 0, bi)
  else
    match readBuffer bi.offsets bi.buffers region.offset region.length with
    | some s => (s, bi)
    | none =>
      (.lazy region, { bi with regions := bi.regions ++ [region] })

/-- The strict weak order used by `std::sort(regions_.begin(),
regions_.end())`: `Region::operator<` compares `(offset, length)`
lexicographically (ties broken by length, per the spec). -/
def regionLe (a b : Region) : Bool :=
  a.offset < b.offset || (a.offset == b.offset && a.length ≤ b.length)

/-- Insertion into a `(offset, length)`-sorted list. -/
def insertSorted (r : Region) : List Region → List Region
  | [] => [r]
  | b :: bs => if regionLe r b then r :: b :: bs else b :: insertSorted r bs

/-- The result of `std::sort` under `Region::operator<`: since regions that
compare equal are identical records, the sorted rearrangement is unique, and
insertion sort computes it. -/
def sortRegions : List Region → List Region
  | [] => []
  | r :: rs => insertSorted r (sortRegions rs)

/-- Embeds the successful scalar-mode `BufferedInput::load(logType)`.
Returns the post-load state together with the list of regions passed, in
order, to the backend `read` action by `loadWithAction` (one call per merged
region).  The population of `offsets_` / `buffers_` (one buffer of exactly
the merged region's length per region, appended in order) happens inside
`readRegion`, declared in `BufferedInput.h`; modelled from the spec: for
each merged region, allocate a buffer of exactly that length, append its
starting offset to `offsets` and the buffer to `buffers`. -/
def load (bi : BufferedInput) : BufferedInput × List Region :=
  if bi.regions.isEmpty then
    (bi, [])
  else
    let merged := (mergeRegions bi.maxMergeDistance (sortRegions bi.regions)).1
    ({ bi with
        regions := [],
        offsets := merged.map Region.offset,
        buffers := merged.map Region.length },
      merged)

/-- Scalar reads against a backend whose `read` throws exactly on the regions
selected by `failp`: the action of `loadWithAction` is attempted on each
merged region in order until the first failure propagates.  Returns the list
of regions on which `read` was invoked and whether all succeeded. -/
def runReads (failp : Region → Bool) : List Region → List Region × Bool
  | [] => ([], true)
  | r :: rs =>
    if failp r then
      ([r], false)
    else
      let rest := runReads failp rs
      (r :: rest.1, rest.2)

/-- Embeds scalar-mode `load` against a failing backend.  The C++ clears
`offsets_` / `buffers_`, sorts and merges `regions_` in place, runs the
reads, and only after all reads succeed executes `regions_.clear()`; an
exception escaping a `read` therefore leaves `regions_` holding the merged
regions.  Returns (post-load state, regions on which `read` was invoked,
success flag).  On failure `offsets_` / `buffers_` hold the entries appended
by `readRegion` before the throw (modelled from the spec, as in `load`). -/
def loadFail (failp : Region → Bool) (bi : BufferedInput) :
    BufferedInput × List Region × Bool :=
  if bi.regions.isEmpty then
    (bi, [], true)
  else
    let merged := (mergeRegions bi.maxMergeDistance (sortRegions bi.regions)).1
    let r := runReads failp merged
    if r.2 then
      ({ bi with
          regions := [],
          offsets := merged.map Region.offset,
          buffers := merged.map Region.length },
        r.1, true)
    else
      ({ bi with
          regions := merged,
          offsets := r.1.map Region.offset,
          buffers := r.1.map Region.length },
        r.1, false)

/-! ### ParallelFor

Modelled from the spec: `ParallelFor.h` / `ParallelFor.cpp` are not in this
source tree (only `ParallelForTest.cpp` is).  Per the spec: with
`N = to - from` and `D = min(parallelismFactor, N)` (0 and 1 both meaning
inline execution), the work is split into `D` contiguous sub-ranges covering
`[from, to)` whose sizes differ by at most one; when `D > 1` every sub-range
is submitted to the executor as a task (the count the tests assert), and
when `D ≤ 1` the whole range runs inline with zero tasks submitted. -/

/-- Modelled from the spec: the list of `count` contiguous half-open
sub-ranges starting at `start`, the first `rem` of size `size + 1` and the
remainder of size `size`. -/
def buildChunks (start : Nat) : Nat → Nat → Nat → List (Nat × Nat)
  | 0, _, _ => []
  | count + 1, size, rem =>
    let sz := size + (if 0 < rem then 1 else 0)
    (start, start + sz) :: buildChunks (start + sz) count size (rem - 1)

/-- Modelled from the spec: the sub-range partition of `[f, t)` used by
`ParallelFor` with parallelism factor `p`. -/
def chunks (f t p : Nat) : List (Nat × Nat) :=
  let n := t - f
  if n = 0 then
    []
  else
    let d := max 1 (min p n)
    buildChunks f d (n / d) (n % d)

/-- Modelled from the spec: the indices at which `ParallelFor::execute`
invokes the user function, in sub-range order.  INDEX mode calls the
function once per element of this list; RANGE mode calls it once per chunk,
and the per-index visits inside each `(begin, end)` chunk are exactly the
same indices. -/
def visitedIndices (f t p : Nat) : List Nat :=
  (chunks f t p).flatMap (fun c => List.range' c.1 (c.2 - c.1))

/-- Modelled from the spec: the number of tasks `ParallelFor::execute`
submits to the executor (all `D` sub-ranges when `D > 1`, none when
`D ≤ 1`). -/
def submittedTasks (f t p : Nat) : Nat :=
  let c := chunks f t p
  if c.length ≤ 1 then 0 else c.length

/-! ### Specification-side definitions

These follow the spec's words, for comparison with the embedded code. -/

/-- The gap `b - (a + la)` between two regions, as the spec writes it. -/
def inputGap (a b : Region) : Int :=
  (b.offset : Int) - (a.offset : Int) - (a.length : Int)

/-- Following the claim's words for over-read accounting: a pass over the
sorted input in which `acc` is the merged region so far (deciding, via
`tryMerge`, whether the next region joins it) and `prev` is the immediately
preceding input region; an adjacent input pair that merges contributes the
positive part of its own gap `inputGap prev b`. -/
def specOverreadLoop (maxMergeDistance : Nat) (acc prev : Region) :
    List Region → Nat
  | [] => 0
  | b :: bs =>
    let t := tryMerge maxMergeDistance acc b
    if t.1 then
      (if 0 < inputGap prev b then (inputGap prev b).toNat else 0) +
        specOverreadLoop maxMergeDistance t.2.1 b bs
    else
      specOverreadLoop maxMergeDistance b b bs

/-- Following the claim's words: the sum, over adjacent input-region pairs
that merged with strictly positive gap, of that gap. -/
def specOverread (maxMergeDistance : Nat) : List Region → Nat
  | [] => 0
  | a :: rest => specOverreadLoop maxMergeDistance a a rest

/-- The amended accounting: at each merging step the contribution is the
positive part of the gap measured against the end of the *accumulated*
merged region (the pair actually handed to `tryMerge`), the merge condition
and merged length written as the spec writes them (`g ≤ maxMergeDistance`
with any non-positive gap merging, new length `max(la, (b - a) + lb)`). -/
def stepOverreadLoop (maxMergeDistance : Nat) (acc : Region) :
    List Region → Nat
  | [] => 0
  | b :: bs =>
    let g := inputGap acc b
    if g ≤ (maxMergeDistance : Int) then
      (if 0 < g then g.toNat else 0) +
        stepOverreadLoop maxMergeDistance
          ⟨acc.offset, max acc.length ((b.offset - acc.offset) + b.length)⟩ bs
    else
      stepOverreadLoop maxMergeDistance b bs

/-- The amended over-read sum for a whole pass. -/
def stepOverread (maxMergeDistance : Nat) : List Region → Nat
  | [] => 0
  | a :: rest => stepOverreadLoop maxMergeDistance a rest

/-- Pairwise separation of consecutive merged regions by strictly more than
`maxMergeDistance` bytes. -/
def Separated (maxMergeDistance : Nat) (a b : Region) : Prop :=
  a.offset + a.length + maxMergeDistance < b.offset

/-! ## Helper lemmas about `tryMerge` -/

theorem tryMerge_offset (m : Nat) (a b : Region) :
    (tryMerge m a b).2.1.offset = a.offset := by
  simp only [tryMerge]
  split_ifs <;> rfl

theorem tryMerge_not_merged (m : Nat) (a b : Region)
    (h : (tryMerge m a b).1 = false) :
    a.offset + a.length + m < b.offset := by
  simp only [tryMerge] at h
  split_ifs at h with h1
  push_neg at h1
  omega

theorem Region.ext' (a b : Region) (h1 : a.offset = b.offset)
    (h2 : a.length = b.length) : a = b := by
  cases a
  cases b
  simp_all

theorem tryMerge_merged_region (m : Nat) (a b : Region)
    (hab : a.offset ≤ b.offset) (h : (tryMerge m a b).1 = true) :
    (tryMerge m a b).2.1 =
      ⟨a.offset, max a.length ((b.offset - a.offset) + b.length)⟩ := by
  obtain ⟨ao, al⟩ := a
  obtain ⟨bo, bl⟩ := b
  simp only at hab
  simp only [tryMerge] at h ⊢
  split_ifs at h ⊢ with h1 h2 h3 <;>
    apply Region.ext' <;> dsimp <;> omega

theorem tryMerge_not_merged_region (m : Nat) (a b : Region)
    (h : (tryMerge m a b).1 = false) :
    (tryMerge m a b).2.1 = a := by
  simp only [tryMerge] at h ⊢
  split_ifs at h ⊢ <;> first | rfl | exact absurd h (by simp)

theorem tryMerge_merged_iff (m : Nat) (a b : Region) (hb : 0 < b.length) :
    (tryMerge m a b).1 = true ↔
      (b.offset + b.length ≤ a.offset + a.length ∨
        inputGap a b ≤ (m : Int)) := by
  simp only [tryMerge, inputGap]
  split_ifs with h1 h2 <;> simp <;> omega

theorem tryMerge_true_iff (m : Nat) (a b : Region) :
    (tryMerge m a b).1 = true ↔ inputGap a b ≤ (m : Int) := by
  simp only [tryMerge, inputGap]
  split_ifs with h1 h2 <;> simp <;> omega

theorem tryMerge_stats (m : Nat) (a b : Region) (hb : 0 < b.length)
    (h : (tryMerge m a b).1 = true) :
    (tryMerge m a b).2.2 =
      if 0 < inputGap a b then (inputGap a b).toNat else 0 := by
  simp only [tryMerge, inputGap] at h ⊢
  split_ifs at h ⊢ with h1 h2 <;> first | rfl | omega | exact absurd h (by simp)

/-! ## Helper lemmas about the merge pass -/

theorem mergeLoop_head_offset (m : Nat) :
    ∀ (l : List Region) (acc : Region),
      ∃ r rs, (mergeLoop m acc l).1 = r :: rs ∧ r.offset = acc.offset
  | [], acc => ⟨acc, [], rfl, rfl⟩
  | b :: bs, acc => by
    simp only [mergeLoop]
    split_ifs with h
    · obtain ⟨r, rs, hr, ho⟩ :=
        mergeLoop_head_offset m bs (tryMerge m acc b).2.1
      exact ⟨r, rs, hr, by rw [ho, tryMerge_offset]⟩
    · exact ⟨acc, (mergeLoop m b bs).1, rfl, rfl⟩

theorem mergeLoop_chain (m : Nat) :
    ∀ (l : List Region) (acc : Region),
      List.Chain' (Separated m) (mergeLoop m acc l).1
  | [], acc => by simp [mergeLoop]
  | b :: bs, acc => by
    simp only [mergeLoop]
    split_ifs with h
    · exact mergeLoop_chain m bs (tryMerge m acc b).2.1
    · obtain ⟨r, rs, hr, ho⟩ := mergeLoop_head_offset m bs b
      rw [hr, List.chain'_cons]
      constructor
      · have hsep := tryMerge_not_merged m acc b (by simpa using h)
        unfold Separated
        omega
      · rw [← hr]
        exact mergeLoop_chain m bs b

theorem mergeRegions_chain (m : Nat) (l : List Region) :
    List.Chain' (Separated m) (mergeRegions m l).1 := by
  cases l with
  | nil => simp [mergeRegions]
  | cons a rest => exact mergeLoop_chain m rest a

theorem mergeRegions_chain_lt (m : Nat) (l : List Region) :
    List.Chain' (fun a b : Region => a.offset < b.offset)
      (mergeRegions m l).1 :=
  (mergeRegions_chain m l).imp fun a b h => by
    unfold Separated at h
    omega

theorem mergeRegions_ne_nil (m : Nat) (l : List Region) (h : l ≠ []) :
    (mergeRegions m l).1 ≠ [] := by
  cases l with
  | nil => exact absurd rfl h
  | cons a rest =>
    obtain ⟨r, rs, hr, _⟩ := mergeLoop_head_offset m rest a
    simp [mergeRegions, hr]

theorem mergeRegions_nodup (m : Nat) (l : List Region) :
    ((mergeRegions m l).1).Nodup := by
  haveI : IsTrans Region (fun a b : Region => a.offset < b.offset) :=
    ⟨fun _ _ _ h1 h2 => Nat.lt_trans h1 h2⟩
  have hp := List.chain'_iff_pairwise.mp (mergeRegions_chain_lt m l)
  exact hp.imp fun h he => by rw [he] at h; omega

/-! ## Sorting helper lemmas -/

theorem sortRegions_fix :
    ∀ l : List Region,
      List.Chain' (fun a b => regionLe a b = true) l → sortRegions l = l
  | [] => fun _ => rfl
  | a :: l => fun h => by
    simp only [sortRegions]
    rw [sortRegions_fix l h.tail]
    cases l with
    | nil => rfl
    | cons b bs =>
      have hab : regionLe a b = true := (List.chain'_cons.mp h).1
      simp [insertSorted, hab]

theorem insertSorted_ne_nil (r : Region) : ∀ l, insertSorted r l ≠ []
  | [] => by simp [insertSorted]
  | b :: bs => by
    simp only [insertSorted]
    split_ifs <;> simp

theorem sortRegions_ne_nil (l : List Region) (h : l ≠ []) :
    sortRegions l ≠ [] := by
  cases l with
  | nil => exact absurd rfl h
  | cons a rest => exact insertSorted_ne_nil a (sortRegions rest)

/-! ## Claim theorems -/

/-- C1: for consecutive sorted regions `A = [a, a+la)` and `B = [b, b+lb)`
with `b ≥ a` and `la, lb > 0`, `tryMerge` merges (returns true, mutating `A`)
iff `B` lies inside `A` (`b + lb ≤ a + la`) or the gap `g = b - (a + la)`
satisfies `g ≤ maxMergeDistance` (any non-positive gap counting as overlap,
which the signed comparison `g ≤ maxMergeDistance` subsumes); on a merge the
region keeps offset `a` and its new length is `max(la, (b - a) + lb)`; on no
merge `A` is unchanged. -/
theorem claim_tryMerge (m : Nat) (a b : Region) (ha : 0 < a.length)
    (hb : 0 < b.length) (hab : a.offset ≤ b.offset) :
    ((tryMerge m a b).1 = true ↔
      (b.offset + b.length ≤ a.offset + a.length ∨
        inputGap a b ≤ (m : Int))) ∧
    ((tryMerge m a b).1 = true →
      (tryMerge m a b).2.1 =
        ⟨a.offset, max a.length ((b.offset - a.offset) + b.length)⟩) ∧
    ((tryMerge m a b).1 = false → (tryMerge m a b).2.1 = a) :=
  ⟨tryMerge_merged_iff m a b hb,
    fun h => tryMerge_merged_region m a b hab h,
    fun h => tryMerge_not_merged_region m a b h⟩

/-- Witness for C1 at `A = [0, 10)`, `B = [12, 20)`, `maxMergeDistance = 4`. -/
theorem claim_tryMerge_witness :
    ((tryMerge 4 ⟨0, 10⟩ ⟨12, 8⟩).1 = true ↔
      ((12 : Nat) + 8 ≤ 0 + 10 ∨ inputGap ⟨0, 10⟩ ⟨12, 8⟩ ≤ (4 : Int))) ∧
    ((tryMerge 4 ⟨0, 10⟩ ⟨12, 8⟩).1 = true →
      (tryMerge 4 ⟨0, 10⟩ ⟨12, 8⟩).2.1 =
        ⟨0, max 10 ((12 - 0) + 8)⟩) ∧
    ((tryMerge 4 ⟨0, 10⟩ ⟨12, 8⟩).1 = false →
      (tryMerge 4 ⟨0, 10⟩ ⟨12, 8⟩).2.1 = ⟨0, 10⟩) :=
  claim_tryMerge 4 ⟨0, 10⟩ ⟨12, 8⟩ (by decide) (by decide) (by decide)

/-- C2: for a non-empty `(offset, length)`-sorted list of positive-length
regions, the merged list has strictly increasing offsets and consecutive
merged regions separated by a gap strictly greater than `maxMergeDistance`,
and the same holds for the `offsets` / `buffers` index after `load`. -/
theorem claim_mergeDisjointness (m : Nat) (rs : List Region)
    (os bs : List Nat) (hne : rs ≠ [])
    (hsorted : List.Chain' (fun a b => regionLe a b = true) rs)
    (hpos : ∀ r ∈ rs, 0 < r.length) :
    List.Chain' (fun a b : Region => a.offset < b.offset)
      (mergeRegions m rs).1 ∧
    List.Chain' (Separated m) (mergeRegions m rs).1 ∧
    List.Chain' (· < ·) ((load ⟨m, rs, os, bs⟩).1).offsets ∧
    List.Chain' (fun p q => p.1 + p.2 + m < q.1)
      (((load ⟨m, rs, os, bs⟩).1).offsets.zip
        ((load ⟨m, rs, os, bs⟩).1).buffers) := by
  have hempty : rs.isEmpty = false := List.isEmpty_eq_false.mpr hne
  have hload : (load ⟨m, rs, os, bs⟩).1 =
      { maxMergeDistance := m, regions := [],
        offsets := (mergeRegions m rs).1.map Region.offset,
        buffers := (mergeRegions m rs).1.map Region.length } := by
    simp [load, hempty, sortRegions_fix rs hsorted]
  refine ⟨mergeRegions_chain_lt m rs, mergeRegions_chain m rs, ?_, ?_⟩
  · rw [hload]
    exact (List.chain'_map Region.offset).mpr (mergeRegions_chain_lt m rs)
  · rw [hload]
    dsimp only
    rw [List.zip_map']
    exact (List.chain'_map (fun r : Region => (r.offset, r.length))).mpr
      ((mergeRegions_chain m rs).imp fun a b h => by
        unfold Separated at h
        dsimp only
        omega)

theorem upperBound_le (x : Nat) : ∀ l : List Nat, upperBound l x ≤ l.length
  | [] => Nat.le_refl 0
  | a :: l => by
    simp only [upperBound]
    split_ifs
    · simp
    · have := upperBound_le x l
      simp only [List.length_cons]
      omega

theorem getD_le_of_lt_upperBound (x d : Nat) :
    ∀ (l : List Nat) (i : Nat), i < upperBound l x → l.getD i d ≤ x
  | [], i => by simp [upperBound]
  | a :: l, 0 => by
    simp only [upperBound]
    split_ifs with h
    · omega
    · intro _
      simpa using Nat.le_of_not_lt h
  | a :: l, i + 1 => by
    simp only [upperBound]
    split_ifs with h
    · omega
    · intro hi
      simpa using getD_le_of_lt_upperBound x d l i (by omega)

theorem lt_of_upperBound_le (x d : Nat) :
    ∀ l : List Nat, List.Pairwise (· < ·) l →
      ∀ j, upperBound l x ≤ j → j < l.length → x < l.getD j d
  | [], _, j => by simp
  | a :: l, hp, j => by
    simp only [upperBound]
    split_ifs with h
    · intro _ hj
      cases j with
      | zero => simpa using h
      | succ j' =>
        have hj' : j' < l.length := by simpa using hj
        have hmem : l.getD j' d ∈ l := by
          rw [List.getD_eq_getElem l d hj']
          exact List.getElem_mem hj'
        have h2 := (List.pairwise_cons.mp hp).1 _ hmem
        rw [List.getD_cons_succ]
        omega
    · intro hj hjl
      cases j with
      | zero => omega
      | succ j' =>
        simpa using lt_of_upperBound_le x d l (List.pairwise_cons.mp hp).2
          j' (by omega) (by simpa using hjl)

theorem readInternal_zero (offsets buffers : List Nat) (offset : Nat) :
    readInternal offsets buffers offset 0 = (none, 0) := by
  simp [readInternal]

theorem readInternal_none (offsets buffers : List Nat)
    (offset length : Nat) (hlen0 : length ≠ 0)
    (h : ∀ j, j < offsets.length → offset < offsets.getD j 0) :
    readInternal offsets buffers offset length = (none, MAX_UINT64) := by
  have hub : upperBound offsets offset = 0 := by
    cases offsets with
    | nil => rfl
    | cons a l =>
      simp only [upperBound]
      rw [if_pos]
      simpa using h 0 (by simp)
  simp [readInternal, hlen0, hub]

theorem readInternal_at (offsets buffers : List Nat)
    (offset length : Nat) (hlen0 : length ≠ 0)
    (hsorted : List.Pairwise (· < ·) offsets)
    (i : Nat) (hi : i < offsets.length) (hile : offsets.getD i 0 ≤ offset)
    (hmax : ∀ j, j < offsets.length → offsets.getD j 0 ≤ offset → j ≤ i) :
    readInternal offsets buffers offset length =
      if offsets.getD i 0 + buffers.getD i 0 ≥ offset + length then
        (some (i, offset - offsets.getD i 0), length)
      else (none, MAX_UINT64) := by
  have hub : upperBound offsets offset = i + 1 := by
    have h1 : i < upperBound offsets offset := by
      by_contra hc
      push_neg at hc
      have hgt := lt_of_upperBound_le offset 0 offsets hsorted i hc hi
      omega
    have h2 : upperBound offsets offset ≤ i + 1 := by
      by_contra hc
      push_neg at hc
      have hle := getD_le_of_lt_upperBound offset 0 offsets (i + 1) hc
      have hlt : i + 1 < offsets.length := by
        have := upperBound_le offset offsets
        omega
      have := hmax (i + 1) hlt hle
      omega
    omega
  simp only [readInternal, if_neg hlen0, hub]
  norm_num

theorem pairwise_getD_le (l : List Nat)
    (hp : List.Pairwise (· < ·) l) (i j : Nat) (hij : i ≤ j)
    (hj : j < l.length) : l.getD i 0 ≤ l.getD j 0 := by
  rcases Nat.eq_or_lt_of_le hij with rfl | hlt
  · exact Nat.le_refl _
  · have h := List.pairwise_iff_getElem.mp hp i j (by omega) hj hlt
    rw [List.getD_eq_getElem l 0 (by omega : i < l.length),
      List.getD_eq_getElem l 0 hj]
    omega

/-- C3: `readInternal(offset, length)` returns the empty span for
`length = 0`; otherwise, with `i` the largest index such that
`offsets[i] ≤ offset`, it returns the `length`-byte subspan of `buffers[i]`
at `offset - offsets[i]` when `offsets[i] + buffers[i].size() ≥ offset +
length`, and the sentinel `(nullptr, MAX_UINT64)` when no such `i` exists or
coverage fails. -/
theorem claim_readInternal (offsets buffers : List Nat)
    (offset length : Nat)
    (hsorted : List.Pairwise (· < ·) offsets)
    (hlen : offsets.length = buffers.length) :
    (length = 0 → readInternal offsets buffers offset length = (none, 0)) ∧
    (length ≠ 0 →
      (∀ j, j < offsets.length → offset < offsets.getD j 0) →
      readInternal offsets buffers offset length = (none, MAX_UINT64)) ∧
    (length ≠ 0 → ∀ i, i < offsets.length → offsets.getD i 0 ≤ offset →
      (∀ j, j < offsets.length → offsets.getD j 0 ≤ offset → j ≤ i) →
      readInternal offsets buffers offset length =
        if offsets.getD i 0 + buffers.getD i 0 ≥ offset + length then
          (some (i, offset - offsets.getD i 0), length)
        else (none, MAX_UINT64)) :=
  ⟨fun h => h ▸ readInternal_zero offsets buffers offset,
    fun h1 h2 => readInternal_none offsets buffers offset length h1 h2,
    fun h1 i hi hile hmax =>
      readInternal_at offsets buffers offset length h1 hsorted i hi hile hmax⟩

/-- Witness for C3 on the index `offsets = [0, 20]`, `buffers` of sizes
`[10, 10]`, at `offset = 5`, `length = 3`. -/
theorem claim_readInternal_witness :
    ((3 : Nat) = 0 → readInternal [0, 20] [10, 10] 5 3 = (none, 0)) ∧
    ((3 : Nat) ≠ 0 →
      (∀ j, j < ([0, 20] : List Nat).length →
        5 < ([0, 20] : List Nat).getD j 0) →
      readInternal [0, 20] [10, 10] 5 3 = (none, MAX_UINT64)) ∧
    ((3 : Nat) ≠ 0 → ∀ i, i < ([0, 20] : List Nat).length →
      ([0, 20] : List Nat).getD i 0 ≤ 5 →
      (∀ j, j < ([0, 20] : List Nat).length →
        ([0, 20] : List Nat).getD j 0 ≤ 5 → j ≤ i) →
      readInternal [0, 20] [10, 10] 5 3 =
        if ([0, 20] : List Nat).getD i 0 + ([10, 10] : List Nat).getD i 0 ≥
            5 + 3 then
          (some (i, 5 - ([0, 20] : List Nat).getD i 0), 3)
        else (none, MAX_UINT64)) :=
  claim_readInternal [0, 20] [10, 10] 5 3
    (List.pairwise_cons.mpr ⟨by decide, List.pairwise_singleton _ _⟩)
    (by decide)

/-- C10: whenever `readInternal` takes the non-sentinel path, the two
`DWIO_ENSURE` bounds assertions hold — the selected entry starts at or
before `offset` and the requested subspan lies entirely inside that buffer —
so a span result is always in bounds. -/
theorem claim_readInternal_assertions (offsets buffers : List Nat)
    (offset length i st sz : Nat)
    (h : readInternal offsets buffers offset length = (some (i, st), sz)) :
    i < offsets.length ∧ offsets.getD i 0 ≤ offset ∧
      (offset - offsets.getD i 0) + length ≤ buffers.getD i 0 ∧
      st = offset - offsets.getD i 0 ∧ sz = length ∧
      st + sz ≤ buffers.getD i 0 := by
  simp only [readInternal] at h
  split_ifs at h with h0 h1 h2
  · exact absurd h (by simp)
  · simp only [Prod.mk.injEq, Option.some.injEq] at h
    obtain ⟨⟨hi', hst⟩, hsz⟩ := h
    have hub1 := upperBound_le offset offsets
    have hle := getD_le_of_lt_upperBound offset 0 offsets
      (upperBound offsets offset - 1) (by omega)
    subst hi'
    subst hst
    subst hsz
    refine ⟨by omega, hle, by omega, rfl, rfl, by omega⟩
  · exact absurd h (by simp)
  · exact absurd h (by simp)

/-- Witness for C10: a concrete non-sentinel call, `offsets = [0]`,
buffer sizes `[10]`, `offset = 2`, `length = 3`. -/
theorem claim_readInternal_assertions_witness :
    (0 : Nat) < ([0] : List Nat).length ∧
      ([0] : List Nat).getD 0 0 ≤ 2 ∧
      (2 - ([0] : List Nat).getD 0 0) + 3 ≤ ([10] : List Nat).getD 0 0 ∧
      (2 : Nat) = 2 - ([0] : List Nat).getD 0 0 ∧ (3 : Nat) = 3 ∧
      (2 : Nat) + 3 ≤ ([10] : List Nat).getD 0 0 :=
  claim_readInternal_assertions [0] [10] 2 3 0 2 3 (by decide)

/-- C6: enqueueing a positive-length region whose byte range is fully
covered by one entry of the current buffer index returns a ready stream over
that buffer's subspan and leaves the RegionSet unchanged; a region covered
by no entry is appended to the RegionSet (with a lazy stream returned).
The hypotheses are the buffer-index invariants established by `load`
(strictly increasing offsets, pairwise disjoint entries). -/
theorem claim_enqueue_covered (bi : BufferedInput) (region : Region)
    (hr : 0 < region.length) (hrm : region.length < MAX_UINT64)
    (hsorted : List.Pairwise (· < ·) bi.offsets)
    (hdisj : ∀ k, k + 1 < bi.offsets.length →
      bi.offsets.getD k 0 + bi.buffers.getD k 0 ≤
        bi.offsets.getD (k + 1) 0) :
    (∀ j, j < bi.offsets.length →
      bi.offsets.getD j 0 ≤ region.offset →
      bi.offsets.getD j 0 + bi.buffers.getD j 0 ≥
        region.offset + region.length →
      enqueue bi region =
        (.array (some (j, region.offset - bi.offsets.getD j 0))
          region.length, bi)) ∧
    ((∀ j, j < bi.offsets.length →
      ¬(bi.offsets.getD j 0 ≤ region.offset ∧
        bi.offsets.getD j 0 + bi.buffers.getD j 0 ≥
          region.offset + region.length)) →
      enqueue bi region =
        (.lazy region, { bi with regions := bi.regions ++ [region] })) := by
  have hne : ¬(region.length = 0) := by omega
  constructor
  · intro j hj hjle hjcov
    have hmax : ∀ j', j' < bi.offsets.length →
        bi.offsets.getD j' 0 ≤ region.offset → j' ≤ j := by
      intro j' hj' hle'
      by_contra hc
      push_neg at hc
      have h1 : bi.offsets.getD (j + 1) 0 ≤ bi.offsets.getD j' 0 :=
        pairwise_getD_le _ hsorted (j + 1) j' (by omega) hj'
      have h2 := hdisj j (by omega)
      omega
    have hri := readInternal_at bi.offsets bi.buffers region.offset
      region.length hne hsorted j hj hjle hmax
    rw [if_pos hjcov] at hri
    simp only [enqueue, if_neg hne, readBuffer, hri]
    rw [if_neg (by omega : ¬(region.length = MAX_UINT64))]
  · intro hnone
    have htail : ∀ result : Option (Nat × Nat) × Nat,
        result = (none, MAX_UINT64) →
        readInternal bi.offsets bi.buffers region.offset region.length =
          result →
        enqueue bi region =
          (.lazy region, { bi with regions := bi.regions ++ [region] }) := by
      intro result hres hri
      subst hres
      simp [enqueue, hne, readBuffer, hri]
    by_cases hex : ∃ j, j < bi.offsets.length ∧
        bi.offsets.getD j 0 ≤ region.offset
    · obtain ⟨j0, hj0, hj0le⟩ := hex
      have hub0 : upperBound bi.offsets region.offset ≠ 0 := by
        intro h0
        have := lt_of_upperBound_le region.offset 0 bi.offsets hsorted j0
          (by omega) hj0
        omega
      have huble := upperBound_le region.offset bi.offsets
      have hi : upperBound bi.offsets region.offset - 1 <
          bi.offsets.length := by omega
      have hile : bi.offsets.getD
          (upperBound bi.offsets region.offset - 1) 0 ≤ region.offset :=
        getD_le_of_lt_upperBound region.offset 0 bi.offsets _ (by omega)
      have hmax : ∀ j', j' < bi.offsets.length →
          bi.offsets.getD j' 0 ≤ region.offset →
          j' ≤ upperBound bi.offsets region.offset - 1 := by
        intro j' hj' hle'
        by_contra hc
        push_neg at hc
        have := lt_of_upperBound_le region.offset 0 bi.offsets hsorted j'
          (by omega) hj'
        omega
      have hri := readInternal_at bi.offsets bi.buffers region.offset
        region.length hne hsorted _ hi hile hmax
      rw [if_neg (fun hcov => (hnone _ hi) ⟨hile, hcov⟩)] at hri
      exact htail _ rfl hri
    · push_neg at hex
      exact htail _ rfl
        (readInternal_none bi.offsets bi.buffers region.offset region.length
          hne (fun j hj => hex j hj))

/-- Witness for C6 on the index `offsets = [0, 100]`, buffer sizes
`[10, 20]`, with region `[2, 5)`. -/
theorem claim_enqueue_covered_witness :
    (∀ j, j < (⟨4, [], [0, 100], [10, 20]⟩ : BufferedInput).offsets.length →
      (⟨4, [], [0, 100], [10, 20]⟩ : BufferedInput).offsets.getD j 0 ≤
        (⟨2, 3⟩ : Region).offset →
      (⟨4, [], [0, 100], [10, 20]⟩ : BufferedInput).offsets.getD j 0 +
          (⟨4, [], [0, 100], [10, 20]⟩ : BufferedInput).buffers.getD j 0 ≥
        (⟨2, 3⟩ : Region).offset + (⟨2, 3⟩ : Region).length →
      enqueue ⟨4, [], [0, 100], [10, 20]⟩ ⟨2, 3⟩ =
        (.array
          (some (j, (⟨2, 3⟩ : Region).offset -
            (⟨4, [], [0, 100], [10, 20]⟩ : BufferedInput).offsets.getD j 0))
          (⟨2, 3⟩ : Region).length, ⟨4, [], [0, 100], [10, 20]⟩)) ∧
    ((∀ j, j < (⟨4, [], [0, 100], [10, 20]⟩ : BufferedInput).offsets.length →
      ¬((⟨4, [], [0, 100], [10, 20]⟩ : BufferedInput).offsets.getD j 0 ≤
          (⟨2, 3⟩ : Region).offset ∧
        (⟨4, [], [0, 100], [10, 20]⟩ : BufferedInput).offsets.getD j 0 +
            (⟨4, [], [0, 100], [10, 20]⟩ : BufferedInput).buffers.getD j 0 ≥
          (⟨2, 3⟩ : Region).offset + (⟨2, 3⟩ : Region).length)) →
      enqueue ⟨4, [], [0, 100], [10, 20]⟩ ⟨2, 3⟩ =
        (.lazy ⟨2, 3⟩,
          { (⟨4, [], [0, 100], [10, 20]⟩ : BufferedInput) with
            regions :=
              (⟨4, [], [0, 100], [10, 20]⟩ : BufferedInput).regions ++
                [⟨2, 3⟩] })) :=
  claim_enqueue_covered ⟨4, [], [0, 100], [10, 20]⟩ ⟨2, 3⟩ (by decide)
    (by decide)
    (List.pairwise_cons.mpr ⟨by decide, List.pairwise_singleton _ _⟩)
    (by
      intro k hk
      have hk0 : k = 0 := by
        simp only [List.length_cons, List.length_nil] at hk
        omega
      subst hk0
      decide)

/-- Witness for C2 at the sorted region list `[[0,10), [100,110)]` with
`maxMergeDistance = 4`. -/
theorem claim_mergeDisjointness_witness :
    List.Chain' (fun a b : Region => a.offset < b.offset)
      (mergeRegions 4 [⟨0, 10⟩, ⟨100, 10⟩]).1 ∧
    List.Chain' (Separated 4) (mergeRegions 4 [⟨0, 10⟩, ⟨100, 10⟩]).1 ∧
    List.Chain' (· < ·)
      ((load ⟨4, [⟨0, 10⟩, ⟨100, 10⟩], [], []⟩).1).offsets ∧
    List.Chain' (fun p q => p.1 + p.2 + 4 < q.1)
      (((load ⟨4, [⟨0, 10⟩, ⟨100, 10⟩], [], []⟩).1).offsets.zip
        ((load ⟨4, [⟨0, 10⟩, ⟨100, 10⟩], [], []⟩).1).buffers) :=
  claim_mergeDisjointness 4 [⟨0, 10⟩, ⟨100, 10⟩] [] [] (by decide)
    (List.chain'_cons.mpr ⟨by decide, List.chain'_singleton _⟩) (by decide)

/-! ## ParallelFor lemmas (spec-modelled) -/

theorem count_range' (k : Nat) :
    ∀ n s : Nat,
      (List.range' s n).count k = if s ≤ k ∧ k < s + n then 1 else 0
  | 0, s => by
    simp only [List.range', List.count_nil]
    split_ifs with h
    · omega
    · rfl
  | n + 1, s => by
    rw [List.range'_succ, List.count_cons, count_range' k n (s + 1)]
    simp only [beq_iff_eq]
    split_ifs <;> omega

theorem buildChunks_count (k : Nat) :
    ∀ count start size rem : Nat, rem ≤ count →
      ((buildChunks start count size rem).flatMap
          (fun c => List.range' c.1 (c.2 - c.1))).count k =
        if start ≤ k ∧ k < start + (count * size + rem) then 1 else 0
  | 0, start, size, rem => fun h => by
    have hrem : rem = 0 := by omega
    subst hrem
    simp only [buildChunks, List.flatMap_nil, List.count_nil]
    split_ifs with h'
    · omega
    · rfl
  | count + 1, start, size, rem => fun h => by
    simp only [buildChunks, List.flatMap_cons, List.count_append]
    rw [count_range',
      buildChunks_count k count (start + (size + if 0 < rem then 1 else 0))
        size (rem - 1) (by omega)]
    rw [Nat.add_sub_cancel_left, Nat.succ_mul]
    split_ifs <;> omega

theorem buildChunks_length :
    ∀ count start size rem : Nat,
      (buildChunks start count size rem).length = count
  | 0, _, _, _ => rfl
  | count + 1, start, size, rem => by
    simp only [buildChunks, List.length_cons]
    rw [buildChunks_length count]

/-- C4: `ParallelFor::execute` over `[from, to)` with `from ≤ to` and any
parallelism factor visits every integer in `[from, to)` exactly once and no
integer outside it, in both INDEX and RANGE modes (both iterate exactly the
per-chunk index lists).  Modelled from the spec, since the `ParallelFor`
implementation is not part of this source tree. -/
theorem claim_parallelFor_visits (f t p : Nat) (h : f ≤ t) :
    ∀ k, (visitedIndices f t p).count k =
      if f ≤ k ∧ k < t then 1 else 0 := by
  intro k
  simp only [visitedIndices, chunks]
  by_cases hn : t - f = 0
  · rw [if_pos hn]
    simp only [List.flatMap_nil, List.count_nil]
    split_ifs with h'
    · omega
    · rfl
  · rw [if_neg hn]
    have hd : 0 < max 1 (min p (t - f)) := by omega
    rw [buildChunks_count k (max 1 (min p (t - f))) f
      ((t - f) / max 1 (min p (t - f))) ((t - f) % max 1 (min p (t - f)))
      (by
        have := Nat.mod_lt (t - f) hd
        omega)]
    have hdm := Nat.div_add_mod (t - f) (max 1 (min p (t - f)))
    split_ifs <;> omega

/-- Witness for C4 at `from = 0`, `to = 10`, `parallelismFactor = 4`,
index `7`. -/
theorem claim_parallelFor_visits_witness :
    (visitedIndices 0 10 4).count 7 =
      if (0 : Nat) ≤ 7 ∧ 7 < 10 then 1 else 0 :=
  claim_parallelFor_visits 0 10 4 (by decide) 7

/-- C7: one `ParallelFor::execute` call submits exactly `D = min(P, N)`
tasks to the executor when `D > 1` and zero tasks when `D ≤ 1` (all work
inline).  Modelled from the spec, since the `ParallelFor` implementation is
not part of this source tree; the counts are the ones the tests assert. -/
theorem claim_parallelFor_dispatch (f t p : Nat) (h : f ≤ t) :
    submittedTasks f t p =
      if 1 < min p (t - f) then min p (t - f) else 0 := by
  simp only [submittedTasks, chunks]
  by_cases hn : t - f = 0
  · rw [if_pos hn]
    simp only [List.length_nil]
    split_ifs <;> omega
  · rw [if_neg hn, buildChunks_length]
    split_ifs <;> omega

/-- Witness for C7 at `from = 0`, `to = 10`, `parallelismFactor = 4`. -/
theorem claim_parallelFor_dispatch_witness :
    submittedTasks 0 10 4 = if 1 < min 4 (10 - 0) then min 4 (10 - 0) else 0 :=
  claim_parallelFor_dispatch 0 10 4 (by decide)

/-! ## Over-read accounting (C5) -/

theorem regionLe_offset (a b : Region) (h : regionLe a b = true) :
    a.offset ≤ b.offset := by
  simp only [regionLe, Bool.or_eq_true, Bool.and_eq_true, decide_eq_true_eq,
    beq_iff_eq] at h
  omega

/-- C5 counterexample: on the sorted, positive-length input
`[[0,100), [10,15), [50,60)]` (with `maxMergeDistance = 2`) all three
regions merge into one, the adjacent input pair `([10,15), [50,60))` merges
with its own positive gap `50 - 15 = 35`, yet the code reports 0 over-read
bytes, because `tryMerge` measures the gap against the end of the
accumulated merged region `[0,100)` (obtaining `-50`), not against the end
of the preceding input region. -/
theorem claim_overread_cex :
    regionLe ⟨0, 100⟩ ⟨10, 5⟩ = true ∧
    regionLe ⟨10, 5⟩ ⟨50, 10⟩ = true ∧
    (∀ r ∈ ([⟨0, 100⟩, ⟨10, 5⟩, ⟨50, 10⟩] : List Region), 0 < r.length) ∧
    specOverread 2 [⟨0, 100⟩, ⟨10, 5⟩, ⟨50, 10⟩] = 35 ∧
    (mergeRegions 2 [⟨0, 100⟩, ⟨10, 5⟩, ⟨50, 10⟩]).2 = 0 ∧
    (mergeRegions 2 [⟨0, 100⟩, ⟨10, 5⟩, ⟨50, 10⟩]).2 ≠
      specOverread 2 [⟨0, 100⟩, ⟨10, 5⟩, ⟨50, 10⟩] := by
  decide

theorem mergeLoop_overread (m : Nat) :
    ∀ (l : List Region) (acc : Region),
      (∀ r ∈ l, acc.offset ≤ r.offset) →
      (∀ r ∈ l, 0 < r.length) →
      List.Pairwise (fun a b : Region => a.offset ≤ b.offset) l →
      (mergeLoop m acc l).2 = stepOverreadLoop m acc l
  | [], acc => fun _ _ _ => rfl
  | b :: bs, acc => fun hoff hpos hp => by
    have hb : 0 < b.length := hpos b (List.mem_cons_self b bs)
    have hab : acc.offset ≤ b.offset := hoff b (List.mem_cons_self b bs)
    have hpc := List.pairwise_cons.mp hp
    simp only [mergeLoop, stepOverreadLoop]
    by_cases hm : (tryMerge m acc b).1 = true
    · rw [if_pos hm, if_pos ((tryMerge_true_iff m acc b).mp hm)]
      have hreg := tryMerge_merged_region m acc b hab hm
      dsimp only
      rw [tryMerge_stats m acc b hb hm, hreg,
        mergeLoop_overread m bs
          ⟨acc.offset, max acc.length ((b.offset - acc.offset) + b.length)⟩
          (fun r hr => hoff r (List.mem_cons_of_mem _ hr))
          (fun r hr => hpos r (List.mem_cons_of_mem _ hr)) hpc.2]
    · rw [if_neg hm,
        if_neg (fun hle => hm ((tryMerge_true_iff m acc b).mpr hle))]
      dsimp only
      exact mergeLoop_overread m bs b (fun r hr => hpc.1 r hr)
        (fun r hr => hpos r (List.mem_cons_of_mem _ hr)) hpc.2

/-- C5 amended: for every merge pass over a sorted list of positive-length
regions, the sum of all values passed to `incRawOverreadBytes` equals the
sum, over merging steps, of the positive part of the gap between the end of
the *accumulated* merged region and the next region's offset (the pair
actually handed to `tryMerge`); non-positive gaps (overlap or containment)
and non-merging steps contribute zero.  The per-adjacent-input-pair reading
of the claim fails (see the counterexample): when a region is contained in
an earlier one, the accumulated end exceeds the input pair's end. -/
theorem claim_overread_accounting (m : Nat) (rs : List Region)
    (hsorted : List.Chain' (fun a b => regionLe a b = true) rs)
    (hpos : ∀ r ∈ rs, 0 < r.length) :
    (mergeRegions m rs).2 = stepOverread m rs := by
  cases rs with
  | nil => rfl
  | cons a l =>
    haveI : IsTrans Region (fun a b : Region => a.offset ≤ b.offset) :=
      ⟨fun _ _ _ h1 h2 => Nat.le_trans h1 h2⟩
    have hchain : List.Chain' (fun x y : Region => x.offset ≤ y.offset)
        (a :: l) := hsorted.imp fun x y h => regionLe_offset x y h
    have hpc := List.pairwise_cons.mp (List.chain'_iff_pairwise.mp hchain)
    exact mergeLoop_overread m l a (fun r hr => hpc.1 r hr)
      (fun r hr => hpos r (List.mem_cons_of_mem _ hr)) hpc.2

/-- Witness for the amended C5 on the sorted list `[[0,10), [12,20)]` with
`maxMergeDistance = 5` (one merge with gap 2). -/
theorem claim_overread_accounting_witness :
    (mergeRegions 5 [⟨0, 10⟩, ⟨12, 8⟩]).2 =
      stepOverread 5 [⟨0, 10⟩, ⟨12, 8⟩] :=
  claim_overread_accounting 5 [⟨0, 10⟩, ⟨12, 8⟩]
    (List.chain'_cons.mpr ⟨by decide, List.chain'_singleton _⟩) (by decide)

/-! ## Scalar load ordering (C8) -/

/-- C8 counterexample: enqueueing `[100,110)` and then `[0,10)` with
`maxMergeDistance = 0` merges nothing — the merged regions are exactly the
two enqueued regions — yet the backend reads happen in sorted
(merged-region) order `[0,10), [100,110)`, not in enqueue order. -/
theorem claim_loadOrder_cex :
    (load ⟨0, [⟨100, 10⟩, ⟨0, 10⟩], [], []⟩).2 = [⟨0, 10⟩, ⟨100, 10⟩] ∧
    (mergeRegions 0 (sortRegions [⟨100, 10⟩, ⟨0, 10⟩])).1 =
      [⟨0, 10⟩, ⟨100, 10⟩] ∧
    (load ⟨0, [⟨100, 10⟩, ⟨0, 10⟩], [], []⟩).2 ≠
      [⟨100, 10⟩, ⟨0, 10⟩] := by
  decide

/-- C8 amended: in scalar mode with a non-empty RegionSet, `load` invokes
the backend `read` exactly once per merged region, synchronously, in
merged-region (ascending-offset) order — not in enqueue order (see the
counterexample). -/
theorem claim_load_reads_order (bi : BufferedInput) (h : bi.regions ≠ []) :
    (load bi).2 =
      (mergeRegions bi.maxMergeDistance (sortRegions bi.regions)).1 ∧
    List.Chain' (fun a b : Region => a.offset < b.offset) (load bi).2 ∧
    (load bi).2 ≠ [] ∧
    ∀ r ∈ (load bi).2, (load bi).2.count r = 1 := by
  have hempty : bi.regions.isEmpty = false := List.isEmpty_eq_false.mpr h
  have h2 : (load bi).2 =
      (mergeRegions bi.maxMergeDistance (sortRegions bi.regions)).1 := by
    simp [load, hempty]
  refine ⟨h2, ?_, ?_, ?_⟩
  · rw [h2]
    exact mergeRegions_chain_lt _ _
  · rw [h2]
    exact mergeRegions_ne_nil _ _ (sortRegions_ne_nil _ h)
  · rw [h2]
    intro r hr
    exact List.count_eq_one_of_mem (mergeRegions_nodup _ _) hr

/-- Witness for the amended C8 at a one-region RegionSet. -/
theorem claim_load_reads_order_witness :
    (load ⟨0, [⟨3, 4⟩], [], []⟩).2 =
      (mergeRegions 0 (sortRegions [⟨3, 4⟩])).1 ∧
    List.Chain' (fun a b : Region => a.offset < b.offset)
      (load ⟨0, [⟨3, 4⟩], [], []⟩).2 ∧
    (load ⟨0, [⟨3, 4⟩], [], []⟩).2 ≠ [] ∧
    ∀ r ∈ (load ⟨0, [⟨3, 4⟩], [], []⟩).2,
      ((load ⟨0, [⟨3, 4⟩], [], []⟩).2).count r = 1 :=
  claim_load_reads_order ⟨0, [⟨3, 4⟩], [], []⟩ (by decide)

/-! ## Failed load (C9) -/

/-- C9 counterexample: with a backend whose `read` always throws, a `load`
of the single region `[0,10)` fails — and afterwards the RegionSet still
holds the merged region (it is *not* empty), because `regions_.clear()`
runs only after all reads succeed. -/
theorem claim_loadFail_cex :
    (loadFail (fun _ => true) ⟨0, [⟨0, 10⟩], [], []⟩).2.2 = false ∧
    (loadFail (fun _ => true) ⟨0, [⟨0, 10⟩], [], []⟩).1.regions =
      [⟨0, 10⟩] ∧
    (loadFail (fun _ => true) ⟨0, [⟨0, 10⟩], [], []⟩).1.regions ≠ [] := by
  decide

theorem runReads_front (failp : Region → Bool) :
    ∀ l : List Region, (runReads failp l).1 <+: l
  | [] => List.nil_prefix
  | r :: rs => by
    simp only [runReads]
    split_ifs with hf
    · exact ⟨rs, rfl⟩
    · obtain ⟨t, ht⟩ := runReads_front failp rs
      exact ⟨t, by rw [List.cons_append, ht]⟩

/-- C9 amended: a backend failure propagates out of `load` unretried —
the regions on which `read` was invoked form a duplicate-free prefix of the
merged regions — but the BufferedInput is *not* left empty: the pending
RegionSet retains the merged regions after a failed load (it is cleared
only on success; see the counterexample). -/
theorem claim_loadFail_state (failp : Region → Bool) (bi : BufferedInput)
    (hne : bi.regions ≠ []) (hfail : (loadFail failp bi).2.2 = false) :
    (loadFail failp bi).1.regions =
      (mergeRegions bi.maxMergeDistance (sortRegions bi.regions)).1 ∧
    (loadFail failp bi).1.regions ≠ [] ∧
    (loadFail failp bi).2.1 <+:
      (mergeRegions bi.maxMergeDistance (sortRegions bi.regions)).1 ∧
    ((loadFail failp bi).2.1).Nodup := by
  have hempty : bi.regions.isEmpty = false := List.isEmpty_eq_false.mpr hne
  by_cases hok : (runReads failp
      (mergeRegions bi.maxMergeDistance (sortRegions bi.regions)).1).2 = true
  · exfalso
    have : (loadFail failp bi).2.2 = true := by simp [loadFail, hempty, hok]
    rw [hfail] at this
    exact Bool.false_ne_true this
  · have h1 : (loadFail failp bi).1.regions =
        (mergeRegions bi.maxMergeDistance (sortRegions bi.regions)).1 := by
      simp [loadFail, hempty, hok]
    have h21 : (loadFail failp bi).2.1 =
        (runReads failp
          (mergeRegions bi.maxMergeDistance (sortRegions bi.regions)).1).1 := by
      simp [loadFail, hempty, hok]
    refine ⟨h1, ?_, ?_, ?_⟩
    · rw [h1]
      exact mergeRegions_ne_nil _ _ (sortRegions_ne_nil _ hne)
    · rw [h21]
      exact runReads_front failp _
    · rw [h21]
      exact List.Nodup.sublist
        (List.IsPrefix.sublist (runReads_front failp _))
        (mergeRegions_nodup _ _)

/-- Witness for the amended C9: an always-failing backend on the RegionSet
`[[5,12)]`. -/
theorem claim_loadFail_state_witness :
    (loadFail (fun _ => true) ⟨0, [⟨5, 7⟩], [], []⟩).1.regions =
      (mergeRegions 0 (sortRegions [⟨5, 7⟩])).1 ∧
    (loadFail (fun _ => true) ⟨0, [⟨5, 7⟩], [], []⟩).1.regions ≠ [] ∧
    (loadFail (fun _ => true) ⟨0, [⟨5, 7⟩], [], []⟩).2.1 <+:
      (mergeRegions 0 (sortRegions [⟨5, 7⟩])).1 ∧
    ((loadFail (fun _ => true) ⟨0, [⟨5, 7⟩], [], []⟩).2.1).Nodup :=
  claim_loadFail_state (fun _ => true) ⟨0, [⟨5, 7⟩], [], []⟩ (by decide)
    (by decide)

end Velox
